import Mathlib

/-!
Verification development for the songrec-lib repository.

This file gives a shallow embedding, in Lean, of the parts of the
repository that the verified statements are about:

* `src/fingerprinting/algorithm.rs` — signature generation
  (`make_signature_from_buffer`, `make_signature_from_file`,
  `do_fft_internal`, `do_peak_spreading`, the peak-storage logic of
  `do_peak_recognition`);
* `src/audio/processor.rs` — the streaming accumulator
  (`process_samples`, `reset`, `get_progress`);
* `src/fingerprinting/communication.rs` — the retry ladder of
  `recognize_song_from_signature_with_config`;
* `src/songrec.rs` — `parse_recognition_response_static` and
  `recognize_from_samples`'s chunking.

Machine integers are modelled as `Nat`/`Int` with explicit `% 2^w`
where the source can wrap; Rust panics (e.g. `copy_from_slice` length
mismatch) are modelled as `Except` errors; floating-point computations
are modelled exactly where they are exact (documented at each use) and
abstracted by parameters where they are not (the FFT magnitudes).
-/

namespace Songrec

/-! ## Signature data model (`src/fingerprinting/signature_format.rs`)

The four canonical frequency bands and a frequency peak, as in the
`FrequencyBand` enum and `FrequencyPeak` struct.  The
`frequency_band_to_sound_peaks` hash map is modelled as a total
function from bands to peak lists, an absent key being the empty list
(the source inserts an empty vector with `or_default` before pushing,
so the two representations agree observably). -/

inductive FrequencyBand where
  | band_250_520
  | band_520_1450
  | band_1450_3500
  | band_3500_5500
  deriving DecidableEq, Repr, Fintype

structure FrequencyPeak where
  fft_pass_number : ℕ
  peak_magnitude : ℕ
  corrected_peak_frequency_bin : ℕ
  deriving DecidableEq, Repr

/-- The per-band peak lists of a signature. -/
def BandPeaks := FrequencyBand → List FrequencyPeak

instance : DecidableEq BandPeaks := by
  unfold BandPeaks; infer_instance

/-- `DecodedSignature` (the fields relevant to the verified claims).
`number_samples` is a `u32` in the source; we store the already-wrapped
value as a `Nat`. -/
structure DecodedSignature where
  sample_rate_hz : ℕ
  number_samples : ℕ
  frequency_band_to_sound_peaks : BandPeaks

def emptyBandPeaks : BandPeaks := fun _ => []

/-! ## Frequency classification (`do_peak_recognition`, algorithm.rs:285-305)

The source computes
`frequency_hz = corrected_peak_frequency_bin as f32 * (16000.0/2.0/1024.0/64.0)`
and matches on `frequency_hz as i32`.

The constant `16000/2/1024/64 = 125/1024` is exactly representable in
`f32` (it is `125 * 2^-10`), `corrected_peak_frequency_bin` is a `u16`
so `bin * 125 ≤ 65535 * 125 < 2^23` is exactly representable, and the
division by `1024` is exact (a power of two).  Hence the `f32` product
is exactly the rational `bin * 125 / 1024`, and the `as i32` cast
(truncation toward zero of a non-negative value) is exactly Nat
division.  The embedding below is therefore exact, not approximate. -/

/-- `frequency_hz as i32` for a `u16` corrected frequency bin:
`⌊bin * 125 / 1024⌋`. -/
def frequencyTruncHz (bin : ℕ) : ℕ := bin * 125 / 1024

/-- The exact (real) corrected frequency in Hz, as a rational. -/
def frequencyHzQ (bin : ℕ) : ℚ := (bin : ℚ) * 125 / 1024

/-- The `match frequency_hz as i32 { 250..=519 => …, 520..=1449 => …,
1450..=3499 => …, 3500..=5500 => …, _ => continue }` arm of
`do_peak_recognition`.  `none` models the `continue` (peak discarded). -/
def classifyBand (bin : ℕ) : Option FrequencyBand :=
  if 250 ≤ frequencyTruncHz bin ∧ frequencyTruncHz bin ≤ 519 then
    some .band_250_520
  else if 520 ≤ frequencyTruncHz bin ∧ frequencyTruncHz bin ≤ 1449 then
    some .band_520_1450
  else if 1450 ≤ frequencyTruncHz bin ∧ frequencyTruncHz bin ≤ 3499 then
    some .band_1450_3500
  else if 3500 ≤ frequencyTruncHz bin ∧ frequencyTruncHz bin ≤ 5500 then
    some .band_3500_5500
  else none

/-! ## Peak storage (`do_peak_recognition`, algorithm.rs:272-322)

A *candidate* is a bin position that has survived the floating-point
threshold tests of `do_peak_recognition` (magnitude floor, frequency-
and time-domain local-maximum tests over the spread spectra).  Those
tests are pure float comparisons over the FFT magnitudes; they are
abstracted here by an oracle `ℕ → List Candidate` giving, for each
value of the hop counter `num_spread_ffts_done` at which a recognition
pass runs, the surviving candidates in scan order.  For a surviving
candidate the source computes

* `fft_pass_number = num_spread_ffts_done - 46`,
* `peak_magnitude` (a log-scaled `f32` cast to `u16`) — abstracted as
  the already-cast `mag : ℕ`,
* `corrected_peak_frequency_bin = ((bin_position as i32 * 64) +
  (peak_variation_2 as i32)) as u16` — `pos` is the bin position
  (`10..=1014`) and `var` the truncated `peak_variation_2`; the `u16`
  cast wraps modulo `2^16` (assuming the `i32` sum does not overflow,
  which would itself be a panic in debug builds),

and then stores the peak under `classifyBand`, or discards it. -/

structure Candidate where
  pos : ℕ
  var : ℤ
  mag : ℕ
  deriving DecidableEq, Repr

/-- `((pos as i32 * 64) + var) as u16`: wrap modulo 2^16. -/
def correctedBin (c : Candidate) : ℕ :=
  (((c.pos : ℤ) * 64 + c.var) % 65536).toNat

/-- Trailing part of one loop iteration of `do_peak_recognition` for a
surviving candidate: classify by frequency and append, or discard. -/
def storeCandidate (peaks : BandPeaks) (tag : ℕ) (c : Candidate) : BandPeaks :=
  match classifyBand (correctedBin c) with
  | none => peaks
  | some b => fun b' =>
      if b' = b then
        peaks b' ++ [{ fft_pass_number := tag,
                       peak_magnitude := c.mag,
                       corrected_peak_frequency_bin := correctedBin c }]
      else peaks b'

/-- One full `do_peak_recognition` pass at hop counter `hops`
(`num_spread_ffts_done` after the increment): every stored peak is
tagged `hops - 46`. -/
def doPeakRecognitionPass (oracle : ℕ → List Candidate) (peaks : BandPeaks)
    (hops : ℕ) : BandPeaks :=
  (oracle hops).foldl (fun p c => storeCandidate p (hops - 46) c) peaks

/-! ## The hop loop of `make_signature_from_buffer` (algorithm.rs:103-116)

`for chunk in buffer.chunks_exact(128) { do_fft_internal; do_peak_spreading;
num_spread_ffts_done += 1; if num_spread_ffts_done >= 46 { do_peak_recognition } }`.

Only the exact 128-sample chunks are iterated; a trailing remainder of
fewer than 128 samples is never processed.  The FFT / spreading numeric
state influences only which candidates survive, which the oracle
abstracts, so the band peaks after `n` hops are given by `hopPeaks`. -/

/-- `chunks_exact 128`: the list of full 128-element chunks, the
remainder (length `< 128`) dropped. -/
def chunksExact (xs : List ℤ) : List (List ℤ) :=
  if _h : 128 ≤ xs.length then
    xs.take 128 :: chunksExact (xs.drop 128)
  else []
termination_by xs.length
decreasing_by
  simp only [List.length_drop]
  omega

/-- Band peaks after the first `n` hops of the loop, starting from the
empty signature: hop `k` (1-based) runs a recognition pass iff
`46 ≤ k`. -/
def hopPeaks (oracle : ℕ → List Candidate) : ℕ → BandPeaks
  | 0 => emptyBandPeaks
  | n + 1 =>
      let p := hopPeaks oracle n
      if 46 ≤ n + 1 then doPeakRecognitionPass oracle p (n + 1) else p

/-- `make_signature_from_buffer`: `number_samples` is the *full* input
length cast to `u32` (wrap modulo 2^32); the peaks come from iterating
the hop loop over the exact 128-sample chunks only. -/
def makeSignatureFromBuffer (oracle : ℕ → List Candidate)
    (buffer : List ℤ) : DecodedSignature :=
  { sample_rate_hz := 16000,
    number_samples := buffer.length % 2 ^ 32,
    frequency_band_to_sound_peaks := hopPeaks oracle (chunksExact buffer).length }

/-- `samplems` as computed when submitting a signature
(communication.rs:28): `number_samples / sample_rate_hz * 1000` — the
duration the external service is told, derived from `number_samples`.
(The source computes it in `f32` and casts to `u32`; for the sample
counts in scope, `≤ 2^32`, the `f32` rounding error is below one unit
of the last place of the exact value; we model the exact ratio,
truncated.) -/
def samplems (sig : DecodedSignature) : ℕ :=
  sig.number_samples * 1000 / sig.sample_rate_hz

/-! ## `make_signature_from_file` (algorithm.rs:37-79)

The filesystem check, the file open and the audio decode are I/O that
this embedding abstracts as inputs: `fileExists` models the
`Path::new(file_path).exists()` test, `openOk` the `File::open` result
and `decoded` the decoded 16 kHz mono PCM stream (`none` = the decoder
constructor failed).  Everything after the decode is pure and is
translated directly. -/

inductive FileError where
  | fileNotFound
  | openFailed
  | decodeFailed
  | noSamples
  | tooShort
  deriving DecidableEq, Repr

def makeSignatureFromFile (oracle : ℕ → List Candidate)
    (fileExists : Bool) (openOk : Bool) (decoded : Option (List ℤ)) :
    Except FileError DecodedSignature :=
  if !fileExists then .error .fileNotFound
  else if !openOk then .error .openFailed
  else match decoded with
  | none => .error .decodeFailed
  | some samples =>
    if samples.isEmpty then .error .noSamples
    else
      let sliceLen := min samples.length (12 * 16000)
      if sliceLen < 3 * 16000 then .error .tooShort
      else
        let slice :=
          if samples.length > 12 * 16000 then
            let middle := samples.length / 2
            (samples.drop (middle - 6 * 16000)).take (12 * 16000)
          else samples
        .ok (makeSignatureFromBuffer oracle (slice.take sliceLen))

/-! ## Streaming accumulator (`src/audio/processor.rs`)

`SignatureGenerator::new` / `do_fft` (algorithm.rs:119-154) for the
streaming path: `do_fft` adds the batch length to `number_samples`
(a `u32`, wrap modulo 2^32), sets the sample rate, runs the internal
FFT and spreading (abstracted, as above), increments the hop counter
and runs a recognition pass when it is `≥ 46`. -/

structure GenState where
  numberSamples : ℕ
  sampleRate : ℕ
  hops : ℕ
  peaks : BandPeaks

def genNew : GenState :=
  { numberSamples := 0, sampleRate := 16000, hops := 0, peaks := emptyBandPeaks }

/-- `SignatureGenerator::do_fft` on one batch (the processor always
feeds exactly 128 samples, for which the internal ring-buffer copy
succeeds). -/
def genDoFft (oracle : ℕ → List Candidate) (g : GenState)
    (chunk : List ℤ) (sampleRate : ℕ) : GenState :=
  let h := g.hops + 1
  { numberSamples := (g.numberSamples + chunk.length) % 2 ^ 32,
    sampleRate := sampleRate,
    hops := h,
    peaks := if 46 ≤ h then doPeakRecognitionPass oracle g.peaks h else g.peaks }

/-- `get_signature` (algorithm.rs:157-159). -/
def genGetSignature (g : GenState) : DecodedSignature :=
  { sample_rate_hz := g.sampleRate,
    number_samples := g.numberSamples,
    frequency_band_to_sound_peaks := g.peaks }

/-- `AudioProcessor` state: generator, leftover sample buffer and the
`samples_processed` counter (a `usize`; overflow is unreachable for any
run in scope, modelled as `ℕ`). -/
structure ProcState where
  gen : GenState
  sampleBuffer : List ℤ
  samplesProcessed : ℕ

/-- `AudioProcessor::new` / `reset` (processor.rs:16-24, 86-90). -/
def procInit : ProcState :=
  { gen := genNew, sampleBuffer := [], samplesProcessed := 0 }

/-- `min_samples = (12.0 * 16000.0_f32) as usize`: the product is exact
in `f32`, so this is exactly 192000. -/
def minSamples : ℕ := 192000

/-- The `while self.sample_buffer.len() >= 128 { … }` loop of
`process_samples` (processor.rs:44-80): drain a 128-sample chunk, feed
it to the generator, add 128 to `samples_processed`; if
`samples_processed >= min_samples`, extract the signature, `reset`,
and return it. -/
def processLoop (oracle : ℕ → List Candidate) (st : ProcState) :
    ProcState × Option DecodedSignature :=
  if _h : 128 ≤ st.sampleBuffer.length then
    if minSamples ≤ st.samplesProcessed + 128 then
      (procInit,
       some (genGetSignature
         (genDoFft oracle st.gen (st.sampleBuffer.take 128) 16000)))
    else
      processLoop oracle
        { gen := genDoFft oracle st.gen (st.sampleBuffer.take 128) 16000,
          sampleBuffer := st.sampleBuffer.drop 128,
          samplesProcessed := st.samplesProcessed + 128 }
  else (st, none)
termination_by st.sampleBuffer.length
decreasing_by
  simp only [List.length_drop]
  omega

/-- `AudioProcessor::process_samples`: append the batch to the buffer,
then run the drain loop. -/
def processSamples (oracle : ℕ → List Candidate) (st : ProcState)
    (samples : List ℤ) : ProcState × Option DecodedSignature :=
  processLoop oracle { st with sampleBuffer := st.sampleBuffer ++ samples }

/-- `AudioProcessor::get_progress` (processor.rs:93-96):
`(samples_processed as f32 / min_samples as f32).min(1.0)`, modelled as
the exact rational ratio.  (All reachable `samples_processed` values
are `≤ 191872`; the `f32` quotient of such a value by 192000 rounds to
within `2^-24` relative error, so the rounded value is `1.0` exactly
when the exact ratio is `1`, and the monotonicity and range statements
proved below transfer verbatim to the `f32` computation, rounding
being monotone.) -/
def getProgress (st : ProcState) : ℚ :=
  min ((st.samplesProcessed : ℚ) / (minSamples : ℚ)) 1

/-- A sequence of `process_samples` calls: final state plus the
per-call return values. -/
def feedBatches (oracle : ℕ → List Candidate) (st : ProcState) :
    List (List ℤ) → ProcState × List (Option DecodedSignature)
  | [] => (st, [])
  | b :: bs =>
      ((feedBatches oracle (processSamples oracle st b).1 bs).1,
       (processSamples oracle st b).2
         :: (feedBatches oracle (processSamples oracle st b).1 bs).2)

/-- Total batch length of a `process_samples` call sequence. -/
def sumLen (batches : List (List ℤ)) : ℕ := (batches.map List.length).sum

/-- The processor states reachable from a fresh `AudioProcessor` by
`process_samples` calls — the states at which a caller can observe
`get_progress` between calls. -/
inductive ReachableProc (oracle : ℕ → List Candidate) : ProcState → Prop
  | init : ReachableProc oracle procInit
  | step (st : ProcState) (samples : List ℤ) :
      ReachableProc oracle st →
      ReachableProc oracle (processSamples oracle st samples).1

/-! ## Recognition client retry ladder
(`recognize_song_from_signature_with_config`, communication.rs:47-72,
and `try_shazam_request_with_config`, communication.rs:75-85)

The network transport is I/O, abstracted as an oracle
`transport : ℕ → Except String α` giving each attempt's outcome (a
transport error, a non-2xx status and an unparseable body all surface
as `Err` in the source, hence one error case here).  The loop
`for attempt in 1..=3` returns the first success immediately, sleeps
2 seconds after a failed attempt when `attempt < 3`, and falls through
to the terminal error after the third failure.  The trace of attempts
and sleeps is recorded as an event list. -/

inductive TransportEvent where
  | attemptMade (attempt : ℕ)
  | sleptSecs (secs : ℕ)
  deriving DecidableEq, Repr

/-- The client configuration chosen by `try_shazam_request_with_config`
for a given attempt number: fields of the three `reqwest` builders
(communication.rs:546-572). -/
structure ClientConfig where
  timeoutSecs : ℕ
  setsUserAgent : Bool
  acceptInvalidCerts : Bool
  tcpKeepaliveSecs : Option ℕ
  poolIdleTimeoutSecs : Option ℕ
  poolMaxIdlePerHost : Option ℕ
  deriving DecidableEq, Repr

/-- `reqwest_client_native_tls` (communication.rs:546-557). -/
def clientNativeTls : ClientConfig :=
  { timeoutSecs := 30, setsUserAgent := true, acceptInvalidCerts := false,
    tcpKeepaliveSecs := some 60, poolIdleTimeoutSecs := some 30,
    poolMaxIdlePerHost := some 10 }

/-- `reqwest_client_basic` (communication.rs:559-565). -/
def clientBasic : ClientConfig :=
  { timeoutSecs := 20, setsUserAgent := true, acceptInvalidCerts := false,
    tcpKeepaliveSecs := none, poolIdleTimeoutSecs := none,
    poolMaxIdlePerHost := none }

/-- `reqwest_client_legacy` (communication.rs:567-572). -/
def clientLegacy : ClientConfig :=
  { timeoutSecs := 15, setsUserAgent := false, acceptInvalidCerts := false,
    tcpKeepaliveSecs := none, poolIdleTimeoutSecs := none,
    poolMaxIdlePerHost := none }

/-- `match attempt { 1 => native_tls, 2 => basic, _ => legacy }`
(communication.rs:81-85). -/
def clientConfigForAttempt (attempt : ℕ) : ClientConfig :=
  match attempt with
  | 1 => clientNativeTls
  | 2 => clientBasic
  | _ => clientLegacy

/-- The `for attempt in 1..=3` loop over the remaining attempt numbers;
called with `[1, 2, 3]`.  Sleeping is recorded, not performed. -/
def runLadder {α : Type} (transport : ℕ → Except String α) :
    List ℕ → Except String α × List TransportEvent
  | [] => (.error "All API requests failed", [])
  | attempt :: rest =>
      match transport attempt with
      | .ok v => (.ok v, [.attemptMade attempt])
      | .error _ =>
          let (r, evs) := runLadder transport rest
          (r, .attemptMade attempt ::
                (if attempt < 3 then .sleptSecs 2 :: evs else evs))

/-- `recognize_song_from_signature_with_config`, delivery part. -/
def recognizeWithRetries {α : Type} (transport : ℕ → Except String α) :
    Except String α × List TransportEvent :=
  runLadder transport [1, 2, 3]

/-! ## `do_fft_internal`'s ring copy and `recognize_from_samples`
(algorithm.rs:161-199, songrec.rs:57-66)

`self.ring_buffer_of_samples[index .. index + 128].copy_from_slice(buf)`
panics when `buf.len() ≠ 128` (`copy_from_slice` requires equal source
and destination lengths) and would panic on the slicing itself if
`index + 128 > 2048`.  Panics are modelled as `Except` errors.  The
later steps (Hanning window, FFT) are float computations that cannot
panic; they do not affect the claims settled here and are not
modelled past the sample ring buffer. -/

structure RingState where
  ringBufferOfSamples : ℕ → ℤ
  ringBufferOfSamplesIndex : ℕ

def ringInit : RingState :=
  { ringBufferOfSamples := fun _ => 0, ringBufferOfSamplesIndex := 0 }

/-- Write `buf` (length 128) at positions `index .. index + 128`. -/
def writeChunk (ring : ℕ → ℤ) (index : ℕ) (buf : List ℤ) : ℕ → ℤ :=
  fun i => if index ≤ i ∧ i < index + 128 then buf.getD (i - index) 0 else ring i

/-- The sample-ring part of `do_fft_internal`: slice-bounds panic, the
`copy_from_slice` length check, then `index += 128; index &= 2047`. -/
def doFftInternalRing (st : RingState) (buf : List ℤ) :
    Except String RingState :=
  if st.ringBufferOfSamplesIndex + 128 > 2048 then
    .error "slice index out of range"
  else if buf.length ≠ 128 then
    .error "copy_from_slice: source slice length does not match destination"
  else
    .ok { ringBufferOfSamples :=
            writeChunk st.ringBufferOfSamples st.ringBufferOfSamplesIndex buf,
          ringBufferOfSamplesIndex := (st.ringBufferOfSamplesIndex + 128) % 2048 }

/-- `samples.chunks(128)`: like `chunks_exact` but the final chunk may
be shorter. -/
def chunks128 (xs : List ℤ) : List (List ℤ) :=
  if _h : xs = [] then []
  else xs.take 128 :: chunks128 (xs.drop 128)
termination_by xs.length
decreasing_by
  simp only [List.length_drop]
  cases xs with
  | nil => simp_all
  | cons a as => simp only [List.length_cons]; omega

/-- The iteration of `for chunk in samples.chunks(128) { do_fft(chunk) }`:
the first panic aborts the run. -/
def ringRun (st : RingState) : List (List ℤ) → Except String RingState
  | [] => .ok st
  | c :: cs =>
      match doFftInternalRing st c with
      | .ok st' => ringRun st' cs
      | .error e => .error e

/-- The fingerprinting loop of `SongRec::recognize_from_samples`
(songrec.rs:62-64): feed every `chunks(128)` chunk to `do_fft`. -/
def recognizeFromSamplesRing (samples : List ℤ) : Except String RingState :=
  ringRun ringInit (chunks128 samples)

/-! ## Response parsing (`parse_recognition_response_static`,
songrec.rs:161-229)

`serde_json::Value` is modelled as an inductive JSON tree; objects keep
a key-value list with unique keys (as `serde_json`'s map), `get`
returning the first binding.  The function itself is a direct
translation; it is total (never panics) by construction, like the
source, which uses only `get`/`pointer`/`as_str` with
`unwrap_or`/`map` — no unwraps on absent data. -/

inductive Json where
  | null
  | bool (b : Bool)
  | num (q : ℚ)
  | str (s : String)
  | arr (items : List Json)
  | obj (fields : List (String × Json))

namespace Json

/-- `Value::get(key)`: a lookup on objects, `None` on anything else. -/
def getKey : Json → String → Option Json
  | obj fields, key => (fields.find? (fun f => f.1 = key)).map (fun f => f.2)
  | _, _ => none

/-- `Value::as_array`. -/
def asArray : Json → Option (List Json)
  | arr items => some items
  | _ => none

/-- `Value::as_str`. -/
def asString : Json → Option String
  | str s => some s
  | _ => none

/-- `Value::pointer` over an already-split token list (the paths used
by the source are literals, so splitting is done statically here);
numeric tokens index arrays. -/
def pointerTokens : Json → List String → Option Json
  | j, [] => some j
  | obj fields, t :: ts =>
      match (fields.find? (fun f => f.1 = t)).map (fun f => f.2) with
      | some j => pointerTokens j ts
      | none => none
  | arr items, t :: ts =>
      match t.toNat? with
      | some i =>
          match items.get? i with
          | some j => pointerTokens j ts
          | none => none
      | none => none
  | _, _ :: _ => none

end Json

/-- `RecognitionResult` (songrec.rs:19-28), without the wall-clock
`recognition_timestamp` (real time, outside the embedding). -/
structure RecognitionResult where
  song_name : String
  artist_name : String
  album_name : Option String
  track_key : String
  release_year : Option String
  genre : Option String
  raw_response : Json

/-- The `release_year` extraction (songrec.rs:199-212): find the first
item of `/sections/0/metadata` whose `/title` is `"Released"` and
return its `/text` string, if any. -/
def releaseYearOf (track : Json) : Option String :=
  (track.pointerTokens ["sections", "0", "metadata"]).bind fun metadata =>
    match metadata.asArray with
    | some items =>
        (items.find? (fun item =>
            (item.pointerTokens ["title"]).bind Json.asString
              = some "Released")).bind
          (fun item => (item.pointerTokens ["text"]).bind Json.asString)
    | none => none

/-- `parse_recognition_response_static`. -/
def parseRecognitionResponse (response : Json) :
    Except String RecognitionResult :=
  match (response.getKey "matches").bind Json.asArray with
  | none => .error "Invalid response format: no matches array"
  | some matchesArr =>
      if matchesArr.isEmpty then .error "No track found in response"
      else
        match response.getKey "track" with
        | none => .error "No track found in response"
        | some track =>
            .ok { song_name :=
                    ((track.getKey "title").bind Json.asString).getD "Unknown",
                  artist_name :=
                    ((track.getKey "subtitle").bind Json.asString).getD "Unknown",
                  album_name :=
                    (track.pointerTokens
                        ["sections", "0", "metadata", "0", "text"]).bind
                      Json.asString,
                  track_key :=
                    ((track.getKey "key").bind Json.asString).getD "",
                  release_year := releaseYearOf track,
                  genre :=
                    (track.pointerTokens ["genres", "primary"]).bind
                      Json.asString,
                  raw_response := response }

/-! ## Peak spreading (`do_peak_spreading`, algorithm.rs:201-231)

`f32` magnitudes enter this function only through `copy` and `max`,
both order operations, so modelling them as rationals is exact (the
stored magnitudes are all `≥ 1e-10 > 0`; no NaNs arise).  A spectrum
is `ℕ → ℚ` (bins `0..=1024` meaningful), the spread ring buffer is
`ℕ → (ℕ → ℚ)` (slots `0..=255` meaningful — every access in the
source masks the index with `& 255` first, mirrored here, so no other
slot is ever touched).  The newest FFT output
(`fft_outputs[(fft_outputs_index - 1) & 255]`) is passed directly as
the `fft` argument. -/

/-- A magnitude spectrum. -/
abbrev Spectrum := ℕ → ℚ

/-- A ring buffer of spectra. -/
abbrev SpectraRing := ℕ → Spectrum

/-- `((index as i32 - offset) & 255) as usize` for the non-negative
`index` and `offset` in scope: subtraction in `ℤ` followed by the
two's-complement mask, i.e. `% 256` with a non-negative result. -/
def sub256 (index offset : ℕ) : ℕ := (((index : ℤ) - offset) % 256).toNat

/-- The in-place forward max filter
`for position in 0..=1022 { v[p] = v[p].max(v[p+1]).max(v[p+2]) }`,
run left to right exactly as in the source (each step reads the
not-yet-rewritten values at `p+1`, `p+2`). -/
def spreadFreqLoop (v : Spectrum) : Spectrum :=
  (List.range 1023).foldl
    (fun f p => Function.update f p (max (f p) (max (f (p + 1)) (f (p + 2)))))
    v

/-- The time-domain spreading loop
`for position in 0..=1024 { for former in [1,3,6] { … } }`: raise bin
`p` of the slots 1, 3 and 6 behind `index` to at least `cur p`, where
`cur` is the clone of the current spread spectrum taken before the
loop. -/
def spreadTimeLoop (ring : SpectraRing) (index : ℕ) (cur : Spectrum) :
    SpectraRing :=
  (List.range 1025).foldl
    (fun t p =>
      [1, 3, 6].foldl
        (fun t2 former =>
          Function.update t2 (sub256 index former)
            (Function.update (t2 (sub256 index former)) p
              (max (t2 (sub256 index former) p) (cur p))))
        t)
    ring

/-- `do_peak_spreading`: copy the newest spectrum into the current
slot, run the frequency filter in place, run the time spreading, then
`index += 1; index &= 255`. -/
def doPeakSpreading (ring : SpectraRing) (index : ℕ) (fft : Spectrum) :
    SpectraRing × ℕ :=
  let cur := spreadFreqLoop fft
  let ring1 := Function.update ring index cur
  (spreadTimeLoop ring1 index cur, (index + 1) % 256)

/-- The trivial candidate oracle: no candidate survives any pass
(e.g. silent input). -/
def noCandidates : ℕ → List Candidate := fun _ => []

/-! ## Lemmas: frequency classification -/

lemma le_frequencyTruncHz_iff (bin t : ℕ) :
    t ≤ frequencyTruncHz bin ↔ (t : ℚ) ≤ frequencyHzQ bin := by
  unfold frequencyTruncHz frequencyHzQ
  rw [Nat.le_div_iff_mul_le (by norm_num : 0 < 1024),
    le_div_iff₀ (by norm_num : (0 : ℚ) < 1024)]
  constructor <;> intro h <;> exact_mod_cast h

lemma frequencyTruncHz_le_iff (bin t : ℕ) :
    frequencyTruncHz bin ≤ t ↔ frequencyHzQ bin < (t : ℚ) + 1 := by
  unfold frequencyTruncHz frequencyHzQ
  rw [← Nat.lt_succ_iff, Nat.div_lt_iff_lt_mul (by norm_num : 0 < 1024),
    div_lt_iff₀ (by norm_num : (0 : ℚ) < 1024)]
  constructor
  · intro h
    have h' : ((bin * 125 : ℕ) : ℚ) < ((Nat.succ t * 1024 : ℕ) : ℚ) := by
      exact_mod_cast h
    push_cast [Nat.succ_eq_add_one] at h'
    linarith
  · intro h
    have h' : ((bin * 125 : ℕ) : ℚ) < ((Nat.succ t * 1024 : ℕ) : ℚ) := by
      push_cast [Nat.succ_eq_add_one]
      linarith
    exact_mod_cast h'

lemma classifyBand_isSome_iff (bin : ℕ) :
    (classifyBand bin).isSome = true ↔
      250 ≤ frequencyTruncHz bin ∧ frequencyTruncHz bin ≤ 5500 := by
  unfold classifyBand
  split_ifs with h1 h2 h3 h4 <;> simp <;> omega

lemma classifyBand_eq_none_iff (bin : ℕ) :
    classifyBand bin = none ↔
      ¬ (250 ≤ frequencyTruncHz bin ∧ frequencyTruncHz bin ≤ 5500) := by
  rw [← classifyBand_isSome_iff]
  cases classifyBand bin <;> simp

lemma classifyBand_band1_iff (bin : ℕ) :
    classifyBand bin = some .band_250_520 ↔
      250 ≤ frequencyTruncHz bin ∧ frequencyTruncHz bin ≤ 519 := by
  unfold classifyBand
  split_ifs with h1 h2 h3 h4 <;> simp_all <;> omega

lemma classifyBand_band2_iff (bin : ℕ) :
    classifyBand bin = some .band_520_1450 ↔
      520 ≤ frequencyTruncHz bin ∧ frequencyTruncHz bin ≤ 1449 := by
  unfold classifyBand
  split_ifs with h1 h2 h3 h4 <;> simp_all <;> omega

lemma classifyBand_band3_iff (bin : ℕ) :
    classifyBand bin = some .band_1450_3500 ↔
      1450 ≤ frequencyTruncHz bin ∧ frequencyTruncHz bin ≤ 3499 := by
  unfold classifyBand
  split_ifs with h1 h2 h3 h4 <;> simp_all <;> omega

lemma classifyBand_band4_iff (bin : ℕ) :
    classifyBand bin = some .band_3500_5500 ↔
      3500 ≤ frequencyTruncHz bin ∧ frequencyTruncHz bin ≤ 5500 := by
  unfold classifyBand
  split_ifs with h1 h2 h3 h4 <;> simp_all <;> omega

lemma storeCandidate_of_none {c : Candidate}
    (h : classifyBand (correctedBin c) = none) (peaks : BandPeaks) (tag : ℕ) :
    storeCandidate peaks tag c = peaks := by
  unfold storeCandidate
  rw [h]

lemma storeCandidate_of_some {c : Candidate} {b : FrequencyBand}
    (h : classifyBand (correctedBin c) = some b) (peaks : BandPeaks) (tag : ℕ) :
    storeCandidate peaks tag c b
        = peaks b ++ [{ fft_pass_number := tag, peak_magnitude := c.mag,
                        corrected_peak_frequency_bin := correctedBin c }] ∧
      ∀ b', b' ≠ b → storeCandidate peaks tag c b' = peaks b' := by
  unfold storeCandidate
  rw [h]
  refine ⟨by simp, fun b' hb' => by simp [hb']⟩

lemma truncHz_range_iff (bin lo hi : ℕ) :
    (lo ≤ frequencyTruncHz bin ∧ frequencyTruncHz bin ≤ hi) ↔
      ((lo : ℚ) ≤ frequencyHzQ bin ∧ frequencyHzQ bin < (hi : ℚ) + 1) :=
  and_congr (le_frequencyTruncHz_iff bin lo) (frequencyTruncHz_le_iff bin hi)

/-- Claim C1 (amended).  A surviving candidate of
`do_peak_recognition` is stored in a band if and only if its exact
corrected frequency lies in the half-open range [250, **5501**) Hz —
equivalently, its integer-truncated frequency is in `250..=5500`
inclusive — not [250, 5500): the `3500..=5500` match arm accepts
truncated 5500 Hz, so corrected frequencies in [5500, 5501) are
stored.  The bands partition the stored range as [250, 520),
[520, 1450), [1450, 3500), [3500, 5501); a candidate outside
[250, 5501) is discarded and never stored in any band, and a stored
peak is appended exactly to its own band's list. -/
theorem c1_peak_storage_frequency_ranges (c : Candidate) (peaks : BandPeaks)
    (tag : ℕ) :
    ((classifyBand (correctedBin c)).isSome = true ↔
       (250 : ℚ) ≤ frequencyHzQ (correctedBin c) ∧
         frequencyHzQ (correctedBin c) < 5501) ∧
    (classifyBand (correctedBin c) = some .band_250_520 ↔
       (250 : ℚ) ≤ frequencyHzQ (correctedBin c) ∧
         frequencyHzQ (correctedBin c) < 520) ∧
    (classifyBand (correctedBin c) = some .band_520_1450 ↔
       (520 : ℚ) ≤ frequencyHzQ (correctedBin c) ∧
         frequencyHzQ (correctedBin c) < 1450) ∧
    (classifyBand (correctedBin c) = some .band_1450_3500 ↔
       (1450 : ℚ) ≤ frequencyHzQ (correctedBin c) ∧
         frequencyHzQ (correctedBin c) < 3500) ∧
    (classifyBand (correctedBin c) = some .band_3500_5500 ↔
       (3500 : ℚ) ≤ frequencyHzQ (correctedBin c) ∧
         frequencyHzQ (correctedBin c) < 5501) ∧
    (classifyBand (correctedBin c) = none →
       storeCandidate peaks tag c = peaks) ∧
    (∀ b, classifyBand (correctedBin c) = some b →
       storeCandidate peaks tag c b
           = peaks b ++ [{ fft_pass_number := tag, peak_magnitude := c.mag,
                           corrected_peak_frequency_bin := correctedBin c }] ∧
         ∀ b', b' ≠ b → storeCandidate peaks tag c b' = peaks b') := by
  refine ⟨?_, ?_, ?_, ?_, ?_, ?_, ?_⟩
  · rw [classifyBand_isSome_iff, truncHz_range_iff]
    norm_num
  · rw [classifyBand_band1_iff, truncHz_range_iff]
    norm_num
  · rw [classifyBand_band2_iff, truncHz_range_iff]
    norm_num
  · rw [classifyBand_band3_iff, truncHz_range_iff]
    norm_num
  · rw [classifyBand_band4_iff, truncHz_range_iff]
    norm_num
  · intro h
    exact storeCandidate_of_none h peaks tag
  · intro b h
    exact storeCandidate_of_some h peaks tag

/-- Claim C1, counterexample to the claim as stated: the candidate
with bin position 704 (a 5500 Hz tone sits exactly on FFT bin
`704 = 5500 * 2048 / 16000`) and zero sub-bin correction yields the
corrected frequency bin 45056, whose exact corrected frequency is
5500 Hz — *outside* the claimed half-open range [250, 5500) — yet the
peak is stored in the 3500-5500 band, not discarded. -/
theorem c1_counterexample :
    correctedBin { pos := 704, var := 0, mag := 100 } = 45056 ∧
    frequencyHzQ 45056 = 5500 ∧
    ¬ ((250 : ℚ) ≤ frequencyHzQ 45056 ∧ frequencyHzQ 45056 < 5500) ∧
    storeCandidate emptyBandPeaks 0 { pos := 704, var := 0, mag := 100 }
        FrequencyBand.band_3500_5500
      = [{ fft_pass_number := 0, peak_magnitude := 100,
           corrected_peak_frequency_bin := 45056 }] := by
  refine ⟨by decide, by norm_num [frequencyHzQ], by norm_num [frequencyHzQ],
    by decide⟩

/-- Witness for `c1_peak_storage_frequency_ranges`: a candidate whose
corrected bin is 640 (78 Hz) is discarded; one whose corrected bin is
32000 (3906.25 Hz) is stored in the 3500-5500 band with the given tag
and magnitude. -/
theorem c1_witness :
    storeCandidate emptyBandPeaks 5 { pos := 10, var := 0, mag := 0 }
        = emptyBandPeaks ∧
    storeCandidate emptyBandPeaks 5 { pos := 500, var := 0, mag := 7 }
        FrequencyBand.band_3500_5500
      = [{ fft_pass_number := 5, peak_magnitude := 7,
           corrected_peak_frequency_bin := 32000 }] := by
  constructor
  · exact (c1_peak_storage_frequency_ranges
      { pos := 10, var := 0, mag := 0 } emptyBandPeaks 5).2.2.2.2.2.1
      (by decide)
  · have h := (c1_peak_storage_frequency_ranges
      { pos := 500, var := 0, mag := 7 } emptyBandPeaks 5).2.2.2.2.2.2
      FrequencyBand.band_3500_5500 (by decide)
    have h2 := h.1
    simpa [emptyBandPeaks] using h2

/-! ## Lemmas: peak-storage bookkeeping (claims C6, C10) -/

lemma storeCandidate_suffix (p : BandPeaks) (t : ℕ) (c : Candidate)
    (b : FrequencyBand) :
    ∃ suffix, storeCandidate p t c b = p b ++ suffix ∧
      ∀ q ∈ suffix, q.fft_pass_number = t := by
  unfold storeCandidate
  cases h : classifyBand (correctedBin c) with
  | none => exact ⟨[], by simp, by simp⟩
  | some b0 =>
      by_cases hb : b = b0
      · subst hb
        refine ⟨[{ fft_pass_number := t, peak_magnitude := c.mag,
                   corrected_peak_frequency_bin := correctedBin c }], by simp, ?_⟩
        intro q hq
        simp at hq
        rw [hq]
      · exact ⟨[], by simp [hb], by simp⟩

lemma foldl_storeCandidate_suffix (cands : List Candidate) (t : ℕ) :
    ∀ (p : BandPeaks) (b : FrequencyBand),
      ∃ suffix,
        (cands.foldl (fun pp c => storeCandidate pp t c) p) b = p b ++ suffix ∧
        ∀ q ∈ suffix, q.fft_pass_number = t := by
  induction cands with
  | nil => exact fun p b => ⟨[], by simp, by simp⟩
  | cons c cs ih =>
      intro p b
      obtain ⟨s1, hs1, ht1⟩ := storeCandidate_suffix p t c b
      obtain ⟨s2, hs2, ht2⟩ := ih (storeCandidate p t c) b
      refine ⟨s1 ++ s2, ?_, ?_⟩
      · simpa [hs1, List.append_assoc] using hs2
      · intro q hq
        rcases List.mem_append.mp hq with h | h
        · exact ht1 q h
        · exact ht2 q h

lemma doPeakRecognitionPass_suffix (oracle : ℕ → List Candidate)
    (p : BandPeaks) (k : ℕ) (b : FrequencyBand) :
    ∃ suffix, doPeakRecognitionPass oracle p k b = p b ++ suffix ∧
      ∀ q ∈ suffix, q.fft_pass_number = k - 46 :=
  foldl_storeCandidate_suffix (oracle k) (k - 46) p b

/-- Claim C6.  In the hop loop of signature generation from a buffer,
(i) no peak is ever present before the hop counter reaches 46;
(ii) after a hop with counter `k ≥ 46`, the band peaks are exactly the
result of a `do_peak_recognition` pass applied to the previous state
at counter `k`; (iii) after a hop with counter `1 ≤ k ≤ 45` the band
peaks are unchanged — recognition does not run; and (iv) every peak
appended by the pass at counter `k` carries
`fft_pass_number = k - 46`. -/
theorem c6_recognition_gating_and_pass_tags (oracle : ℕ → List Candidate) :
    (∀ k, k ≤ 45 → ∀ b, hopPeaks oracle k b = []) ∧
    (∀ k, 46 ≤ k →
       hopPeaks oracle k
         = doPeakRecognitionPass oracle (hopPeaks oracle (k - 1)) k) ∧
    (∀ k, 1 ≤ k → k ≤ 45 → hopPeaks oracle k = hopPeaks oracle (k - 1)) ∧
    (∀ k, 46 ≤ k → ∀ b, ∃ appended,
       hopPeaks oracle k b = hopPeaks oracle (k - 1) b ++ appended ∧
       ∀ q ∈ appended, q.fft_pass_number = k - 46) := by
  have hlt : ∀ k, k ≤ 45 → ∀ b, hopPeaks oracle k b = [] := by
    intro k
    induction k with
    | zero => intro _ b; rfl
    | succ n ih =>
        intro h b
        have hn : ¬ 46 ≤ n + 1 := by omega
        simp only [hopPeaks, hn, if_false]
        exact ih (by omega) b
  have hrun : ∀ k, 46 ≤ k →
      hopPeaks oracle k
        = doPeakRecognitionPass oracle (hopPeaks oracle (k - 1)) k := by
    intro k hk
    obtain ⟨n, rfl⟩ : ∃ n, k = n + 1 := ⟨k - 1, by omega⟩
    simp only [hopPeaks, hk, if_true, Nat.add_sub_cancel]
  refine ⟨hlt, hrun, ?_, ?_⟩
  · intro k h1 h45
    obtain ⟨n, rfl⟩ : ∃ n, k = n + 1 := ⟨k - 1, by omega⟩
    have hn : ¬ 46 ≤ n + 1 := by omega
    simp only [hopPeaks, hn, if_false, Nat.add_sub_cancel]
  · intro k hk b
    rw [hrun k hk]
    exact doPeakRecognitionPass_suffix oracle (hopPeaks oracle (k - 1)) k b

/-- Witness for `c6_recognition_gating_and_pass_tags`: at hop counter
45 no peaks exist; at hop counter 46 the state is a recognition pass
over the counter-45 state. -/
theorem c6_witness :
    hopPeaks noCandidates 45 FrequencyBand.band_250_520 = [] ∧
    hopPeaks noCandidates 46
      = doPeakRecognitionPass noCandidates (hopPeaks noCandidates 45) 46 := by
  refine ⟨(c6_recognition_gating_and_pass_tags noCandidates).1 45 (by decide)
    FrequencyBand.band_250_520, ?_⟩
  have h := (c6_recognition_gating_and_pass_tags noCandidates).2.1 46 (by decide)
  simpa using h

/-! ## Lemmas: `chunks_exact` (claim C10) -/

lemma chunksExact_length (xs : List ℤ) :
    (chunksExact xs).length = xs.length / 128 := by
  induction xs using chunksExact.induct with
  | case1 xs h ih =>
      rw [chunksExact, dif_pos h]
      simp only [List.length_cons]
      rw [ih, List.length_drop,
        Nat.div_eq_sub_div (by norm_num : 0 < 128) h]
  | case2 xs h =>
      rw [chunksExact, dif_neg h]
      simp only [List.length_nil]
      omega

lemma chunksExact_mem_length (xs : List ℤ) :
    ∀ c ∈ chunksExact xs, c.length = 128 := by
  induction xs using chunksExact.induct with
  | case1 xs h ih =>
      rw [chunksExact, dif_pos h]
      simp only [List.mem_cons]
      rintro c (rfl | hc)
      · simp only [List.length_take]
        omega
      · exact ih c hc
  | case2 xs h =>
      rw [chunksExact, dif_neg h]
      simp

lemma chunksExact_sum (xs : List ℤ) :
    ((chunksExact xs).map List.length).sum = 128 * (xs.length / 128) := by
  induction xs using chunksExact.induct with
  | case1 xs h ih =>
      rw [chunksExact, dif_pos h]
      simp only [List.map_cons, List.sum_cons]
      rw [ih, List.length_drop, List.length_take,
        Nat.div_eq_sub_div (by norm_num : 0 < 128) h]
      have hmin : min 128 xs.length = 128 := by omega
      rw [hmin]
      ring
  | case2 xs h =>
      rw [chunksExact, dif_neg h]
      simp only [List.map_nil, List.sum_nil]
      have h0 : xs.length / 128 = 0 := by omega
      rw [h0, Nat.mul_zero]

/-- Claim C10.  `make_signature_from_buffer` sets `number_samples` to
the *full* input length (for all inputs shorter than the `u32` wrap),
while the hop loop iterates only over the exact 128-sample chunks —
each processed chunk has length exactly 128 and the processed total is
`128 * (len / 128)`, so a trailing remainder of `len % 128` samples is
counted in `number_samples` (and hence in the derived duration
`samplems`) without ever being fed to the FFT pipeline. -/
theorem c10_number_samples_counts_remainder (oracle : ℕ → List Candidate)
    (buffer : List ℤ) (h : buffer.length < 2 ^ 32) :
    (makeSignatureFromBuffer oracle buffer).number_samples = buffer.length ∧
    (∀ c ∈ chunksExact buffer, c.length = 128) ∧
    ((chunksExact buffer).map List.length).sum = 128 * (buffer.length / 128) ∧
    (makeSignatureFromBuffer oracle buffer).number_samples
        - ((chunksExact buffer).map List.length).sum = buffer.length % 128 ∧
    samplems (makeSignatureFromBuffer oracle buffer)
        = buffer.length * 1000 / 16000 := by
  have hns : (makeSignatureFromBuffer oracle buffer).number_samples
      = buffer.length := by
    simp only [makeSignatureFromBuffer]
    exact Nat.mod_eq_of_lt h
  refine ⟨hns, chunksExact_mem_length buffer, chunksExact_sum buffer, ?_, ?_⟩
  · rw [hns, chunksExact_sum buffer]
    omega
  · unfold samplems
    rw [hns]
    rfl

/-- Witness for `c10_number_samples_counts_remainder`: a 200-sample
buffer yields `number_samples = 200` while only 128 samples (one exact
chunk) enter the hop loop; the 72-sample remainder is unprocessed but
counted. -/
theorem c10_witness :
    (makeSignatureFromBuffer noCandidates (List.replicate 200 0)).number_samples
        = 200 ∧
    ((chunksExact (List.replicate 200 0)).map List.length).sum = 128 := by
  have h := c10_number_samples_counts_remainder noCandidates
    (List.replicate 200 0) (by rw [List.length_replicate]; norm_num)
  constructor
  · have h1 := h.1
    rwa [List.length_replicate] at h1
  · have h2 := h.2.2.1
    rw [List.length_replicate] at h2
    norm_num at h2
    exact h2

/-- Claim C8 (amended).  `make_signature_from_file`: a missing file
yields the distinct `fileNotFound` error; decoded audio of between 1
and 47999 samples (under 3 s at 16 kHz) yields the `tooShort` error;
decoded audio of 48000..192000 samples is fingerprinted whole; decoded
audio longer than 192000 samples (12 s) is fingerprinted as exactly
the centered 192000-sample excerpt
`samples[len/2 - 96000 .. len/2 + 96000]` — the excerpt has length
192000 and the sample counts cut before and after it differ by at most
the input-length parity. -/
theorem c8_file_length_gating (oracle : ℕ → List Candidate) (openOk : Bool)
    (decoded : Option (List ℤ)) (samples : List ℤ) :
    (makeSignatureFromFile oracle false openOk decoded
        = .error .fileNotFound) ∧
    (FileError.fileNotFound ≠ FileError.tooShort) ∧
    (0 < samples.length → samples.length < 48000 →
       makeSignatureFromFile oracle true true (some samples)
         = .error .tooShort) ∧
    (48000 ≤ samples.length → samples.length ≤ 192000 →
       makeSignatureFromFile oracle true true (some samples)
         = .ok (makeSignatureFromBuffer oracle samples)) ∧
    (192000 < samples.length →
       makeSignatureFromFile oracle true true (some samples)
           = .ok (makeSignatureFromBuffer oracle
               ((samples.drop (samples.length / 2 - 96000)).take 192000)) ∧
       ((samples.drop (samples.length / 2 - 96000)).take 192000).length
           = 192000 ∧
       samples.length - ((samples.length / 2 - 96000) + 192000)
           = (samples.length / 2 - 96000) + samples.length % 2) := by
  have hne : 0 < samples.length → samples.isEmpty = false := by
    intro h0
    cases samples with
    | nil => simp at h0
    | cons a as => rfl
  refine ⟨rfl, by decide, ?_, ?_, ?_⟩
  · intro h0 hlt
    have hmin : min samples.length (12 * 16000) = samples.length := by omega
    unfold makeSignatureFromFile
    simp only [Bool.not_true]
    rw [if_neg (by decide : ¬(false = true)),
      if_neg (by decide : ¬(false = true)), hne h0,
      if_neg (by decide : ¬(false = true)), hmin, if_pos (by omega)]
  · intro hge hle
    have hmin : min samples.length (12 * 16000) = samples.length := by omega
    unfold makeSignatureFromFile
    simp only [Bool.not_true]
    rw [if_neg (by decide : ¬(false = true)),
      if_neg (by decide : ¬(false = true)), hne (by omega),
      if_neg (by decide : ¬(false = true)), hmin, if_neg (by omega),
      if_neg (by omega : ¬samples.length > 12 * 16000), List.take_length]
  · intro hgt
    have hlen : ((samples.drop (samples.length / 2 - 96000)).take 192000).length
        = 192000 := by
      rw [List.length_take, List.length_drop]
      omega
    refine ⟨?_, hlen, by omega⟩
    have hmin : min samples.length (12 * 16000) = 12 * 16000 := by omega
    unfold makeSignatureFromFile
    simp only [Bool.not_true]
    rw [if_neg (by decide : ¬(false = true)),
      if_neg (by decide : ¬(false = true)), hne (by omega),
      if_neg (by decide : ¬(false = true)), hmin, if_neg (by omega),
      if_pos (by omega : samples.length > 12 * 16000), List.take_take]
    norm_num

/-- Claim C8, counterexample to the claim as stated: a file that
decodes to *zero* samples is shorter than 3 seconds, but it is rejected
with the distinct `noSamples` error ("no audio samples could be
extracted"), not with the "too short" error the claim requires for
every decode shorter than 3 seconds. -/
theorem c8_counterexample :
    makeSignatureFromFile noCandidates true true (some [])
        = .error .noSamples ∧
    FileError.noSamples ≠ FileError.tooShort ∧
    ([] : List ℤ).length < 3 * 16000 := by
  refine ⟨rfl, by decide, by decide⟩

/-- Witness for `c8_file_length_gating`: a 47999-sample decode is
rejected as too short; a missing file is rejected as not found. -/
theorem c8_witness :
    makeSignatureFromFile noCandidates true true
        (some (List.replicate 47999 0)) = .error .tooShort ∧
    makeSignatureFromFile noCandidates false true
        (some (List.replicate 47999 0)) = .error .fileNotFound := by
  constructor
  · exact (c8_file_length_gating noCandidates true
      (some (List.replicate 47999 0)) (List.replicate 47999 0)).2.2.1
      (by rw [List.length_replicate]; norm_num)
      (by rw [List.length_replicate]; norm_num)
  · exact (c8_file_length_gating noCandidates true
      (some (List.replicate 47999 0)) (List.replicate 47999 0)).1

/-! ## Lemmas: the 128-sample chunk contract (claim C9) -/

lemma doFftInternalRing_ok {st : RingState} {buf : List ℤ}
    (hidx : st.ringBufferOfSamplesIndex + 128 ≤ 2048)
    (hlen : buf.length = 128) :
    doFftInternalRing st buf
      = .ok { ringBufferOfSamples :=
                writeChunk st.ringBufferOfSamples st.ringBufferOfSamplesIndex buf,
              ringBufferOfSamplesIndex :=
                (st.ringBufferOfSamplesIndex + 128) % 2048 } := by
  unfold doFftInternalRing
  rw [if_neg (by omega), if_neg (by omega)]

lemma doFftInternalRing_error {st : RingState} {buf : List ℤ}
    (hidx : st.ringBufferOfSamplesIndex + 128 ≤ 2048)
    (hlen : buf.length ≠ 128) :
    doFftInternalRing st buf
      = .error "copy_from_slice: source slice length does not match destination" := by
  unfold doFftInternalRing
  rw [if_neg (by omega), if_pos hlen]

lemma ringRun_ok_iff (cs : List (List ℤ)) :
    ∀ st : RingState,
      st.ringBufferOfSamplesIndex % 128 = 0 →
      st.ringBufferOfSamplesIndex < 2048 →
      ((∃ st', ringRun st cs = .ok st') ↔ ∀ c ∈ cs, c.length = 128) := by
  induction cs with
  | nil =>
      intro st _ _
      simp [ringRun]
  | cons c cs ih =>
      intro st h1 h2
      have hidx : st.ringBufferOfSamplesIndex + 128 ≤ 2048 := by omega
      by_cases hlen : c.length = 128
      · rw [ringRun, doFftInternalRing_ok hidx hlen]
        have hmod : ((st.ringBufferOfSamplesIndex + 128) % 2048) % 128 = 0 := by
          omega
        have hlt : (st.ringBufferOfSamplesIndex + 128) % 2048 < 2048 := by
          omega
        rw [ih _ hmod hlt]
        simp [hlen]
      · rw [ringRun, doFftInternalRing_error hidx hlen]
        simp only [List.mem_cons]
        constructor
        · rintro ⟨st', hst'⟩
          cases hst'
        · intro hall
          exact absurd (hall c (Or.inl rfl)) hlen

lemma chunks128_all_full_iff (xs : List ℤ) :
    (∀ c ∈ chunks128 xs, c.length = 128) ↔ xs.length % 128 = 0 := by
  induction xs using chunks128.induct with
  | case1 =>
      rw [chunks128, dif_pos rfl]
      simp
  | case2 xs h ih =>
      rw [chunks128, dif_neg h]
      have h0 : 0 < xs.length := List.length_pos.mpr h
      by_cases hge : 128 ≤ xs.length
      · have htake : (xs.take 128).length = 128 := by
          rw [List.length_take]
          omega
        simp only [List.mem_cons]
        constructor
        · intro hall
          have htail : ∀ c ∈ chunks128 (xs.drop 128), c.length = 128 :=
            fun c hc => hall c (Or.inr hc)
          have := ih.mp htail
          rw [List.length_drop] at this
          omega
        · intro hmod
          rintro c (rfl | hc)
          · exact htake
          · refine (ih.mpr ?_) c hc
            rw [List.length_drop]
            omega
      · have hdrop : xs.drop 128 = [] := List.drop_eq_nil_of_le (by omega)
        have htake : xs.take 128 = xs := List.take_of_length_le (by omega)
        rw [hdrop, htake, chunks128, dif_pos rfl]
        simp only [List.mem_cons, List.not_mem_nil, or_false]
        constructor
        · intro hall
          have := hall xs rfl
          omega
        · intro hmod
          intro c hc
          rw [hc]
          omega

/-- Claim C9.  `do_fft_internal` requires its batch to be exactly 128
samples: for any in-range ring cursor, a batch whose length differs
from 128 panics in the `copy_from_slice` (modelled as the error value),
and a 128-sample batch succeeds.  Consequently
`SongRec::recognize_from_samples`, which feeds `chunks(128)` chunks,
panics exactly when the total sample count is not a multiple of 128
(the final short chunk trips the length check), and completes without
panicking when it is. -/
theorem c9_fft_requires_128_sample_chunks :
    (∀ (st : RingState) (buf : List ℤ),
       st.ringBufferOfSamplesIndex + 128 ≤ 2048 → buf.length ≠ 128 →
       doFftInternalRing st buf
         = .error "copy_from_slice: source slice length does not match destination") ∧
    (∀ samples : List ℤ,
       (∃ st', recognizeFromSamplesRing samples = .ok st') ↔
         samples.length % 128 = 0) := by
  constructor
  · intro st buf hidx hlen
    exact doFftInternalRing_error hidx hlen
  · intro samples
    unfold recognizeFromSamplesRing
    rw [ringRun_ok_iff (chunks128 samples) ringInit rfl
      (by norm_num [ringInit])]
    exact chunks128_all_full_iff samples

/-- Witness for `c9_fft_requires_128_sample_chunks`: a 130-sample batch
panics the internal copy; recognizing from 130 samples (not a multiple
of 128) panics, while 256 samples (two exact chunks) succeed. -/
theorem c9_witness :
    doFftInternalRing ringInit (List.replicate 130 0)
        = .error "copy_from_slice: source slice length does not match destination" ∧
    ¬ (∃ st', recognizeFromSamplesRing (List.replicate 130 0) = .ok st') ∧
    (∃ st', recognizeFromSamplesRing (List.replicate 256 0) = .ok st') := by
  refine ⟨?_, ?_, ?_⟩
  · exact (c9_fft_requires_128_sample_chunks).1 ringInit (List.replicate 130 0)
      (by norm_num [ringInit]) (by rw [List.length_replicate]; norm_num)
  · rw [(c9_fft_requires_128_sample_chunks).2 (List.replicate 130 0)]
    rw [List.length_replicate]
    norm_num
  · rw [(c9_fft_requires_128_sample_chunks).2 (List.replicate 256 0)]
    rw [List.length_replicate]

/-- Claim C3.  The delivery loop of
`recognize_song_from_signature_with_config` attempts at most 3 times,
with a different transport configuration on each attempt (attempt 1
the native-TLS client, attempt 2 the basic client, attempt 3 the
legacy client — pairwise distinct); on the first successful attempt it
returns that response immediately with no further attempts; after each
failed non-final attempt it waits a fixed 2-second backoff; and if all
3 attempts fail it returns the terminal error after exactly 3 attempts
and two intervening 2-second waits. -/
theorem c3_retry_ladder (α : Type) (transport : ℕ → Except String α)
    (v : α) (e1 e2 e3 : String) :
    (transport 1 = .ok v →
       recognizeWithRetries transport = (.ok v, [.attemptMade 1])) ∧
    (transport 1 = .error e1 → transport 2 = .ok v →
       recognizeWithRetries transport
         = (.ok v, [.attemptMade 1, .sleptSecs 2, .attemptMade 2])) ∧
    (transport 1 = .error e1 → transport 2 = .error e2 →
       transport 3 = .ok v →
       recognizeWithRetries transport
         = (.ok v, [.attemptMade 1, .sleptSecs 2, .attemptMade 2,
                    .sleptSecs 2, .attemptMade 3])) ∧
    (transport 1 = .error e1 → transport 2 = .error e2 →
       transport 3 = .error e3 →
       recognizeWithRetries transport
         = (.error "All API requests failed",
            [.attemptMade 1, .sleptSecs 2, .attemptMade 2,
             .sleptSecs 2, .attemptMade 3])) ∧
    (clientConfigForAttempt 1 ≠ clientConfigForAttempt 2 ∧
     clientConfigForAttempt 1 ≠ clientConfigForAttempt 3 ∧
     clientConfigForAttempt 2 ≠ clientConfigForAttempt 3 ∧
     clientConfigForAttempt 1 = clientNativeTls ∧
     clientConfigForAttempt 2 = clientBasic ∧
     clientConfigForAttempt 3 = clientLegacy) := by
  refine ⟨?_, ?_, ?_, ?_, by decide, by decide, by decide, rfl, rfl, rfl⟩
  · intro h1
    simp [recognizeWithRetries, runLadder, h1]
  · intro h1 h2
    simp [recognizeWithRetries, runLadder, h1, h2]
  · intro h1 h2 h3
    simp [recognizeWithRetries, runLadder, h1, h2, h3]
  · intro h1 h2 h3
    simp [recognizeWithRetries, runLadder, h1, h2, h3]

/-- Witness for `c3_retry_ladder`: a transport that succeeds at once
gives one attempt and no waits; one that always fails gives the
terminal error after three attempts and two waits. -/
theorem c3_witness :
    recognizeWithRetries (fun _ => (.ok 0 : Except String ℕ))
        = (.ok 0, [.attemptMade 1]) ∧
    recognizeWithRetries (fun _ => (.error "boom" : Except String ℕ))
        = (.error "All API requests failed",
           [.attemptMade 1, .sleptSecs 2, .attemptMade 2,
            .sleptSecs 2, .attemptMade 3]) := by
  constructor
  · exact (c3_retry_ladder ℕ (fun _ => .ok 0) 0 "" "" "").1 rfl
  · exact (c3_retry_ladder ℕ (fun _ => .error "boom") 0 "boom" "boom"
      "boom").2.2.2.1 rfl rfl rfl

/-- Claim C5.  `parse_recognition_response_static` returns an error
(and, being a total function, never panics) when the response has no
`matches` array, when the `matches` array is empty, or when there is
no top-level `track`; and it returns a `RecognitionResult` exactly
when a non-empty `matches` array and a top-level `track` are both
present. -/
theorem c5_response_parsing_requirements (r : Json) :
    ((r.getKey "matches").bind Json.asArray = none →
       parseRecognitionResponse r
         = .error "Invalid response format: no matches array") ∧
    ((r.getKey "matches").bind Json.asArray = some [] →
       parseRecognitionResponse r = .error "No track found in response") ∧
    (∀ ms, (r.getKey "matches").bind Json.asArray = some ms → ms ≠ [] →
       r.getKey "track" = none →
       parseRecognitionResponse r = .error "No track found in response") ∧
    ((∃ res, parseRecognitionResponse r = .ok res) ↔
       ((∃ ms, (r.getKey "matches").bind Json.asArray = some ms ∧ ms ≠ []) ∧
        ∃ t, r.getKey "track" = some t)) := by
  refine ⟨?_, ?_, ?_, ?_⟩
  · intro h
    simp [parseRecognitionResponse, h]
  · intro h
    simp [parseRecognitionResponse, h]
  · intro ms hm hne ht
    have hie : ms.isEmpty = false := by
      cases ms with
      | nil => exact absurd rfl hne
      | cons a as => rfl
    simp [parseRecognitionResponse, hm, ht, hie]
  · constructor
    · rintro ⟨res, hres⟩
      cases hm : (r.getKey "matches").bind Json.asArray with
      | none => simp [parseRecognitionResponse, hm] at hres
      | some ms =>
          by_cases hne : ms = []
          · subst hne
            simp [parseRecognitionResponse, hm] at hres
          · have hie : ms.isEmpty = false := by
              cases ms with
              | nil => exact absurd rfl hne
              | cons a as => rfl
            cases ht : r.getKey "track" with
            | none => simp [parseRecognitionResponse, hm, hie, ht] at hres
            | some t => exact ⟨⟨ms, rfl, hne⟩, t, rfl⟩
    · rintro ⟨⟨ms, hm, hne⟩, t, ht⟩
      have hie : ms.isEmpty = false := by
        cases ms with
        | nil => exact absurd rfl hne
        | cons a as => rfl
      cases hp : parseRecognitionResponse r with
      | ok res => exact ⟨res, rfl⟩
      | error e =>
          simp only [parseRecognitionResponse, hm, hie, ht, Bool.false_eq_true,
            if_false] at hp
          cases hp

/-- Witness for `c5_response_parsing_requirements`, on four concrete
responses: no `matches` key; an empty `matches` array; a non-empty
`matches` array without `track`; and a full response, which parses. -/
theorem c5_witness :
    parseRecognitionResponse (Json.obj [("status", Json.str "ok")])
        = .error "Invalid response format: no matches array" ∧
    parseRecognitionResponse (Json.obj [("matches", Json.arr [])])
        = .error "No track found in response" ∧
    parseRecognitionResponse (Json.obj [("matches", Json.arr [Json.null])])
        = .error "No track found in response" ∧
    (∃ res, parseRecognitionResponse
        (Json.obj [("matches", Json.arr [Json.null]),
                   ("track", Json.obj [("title", Json.str "Song")])])
      = .ok res) := by
  refine ⟨?_, ?_, ?_, ?_⟩
  · exact (c5_response_parsing_requirements
      (Json.obj [("status", Json.str "ok")])).1 rfl
  · exact (c5_response_parsing_requirements
      (Json.obj [("matches", Json.arr [])])).2.1 rfl
  · exact (c5_response_parsing_requirements
      (Json.obj [("matches", Json.arr [Json.null])])).2.2.1
      [Json.null] rfl (by simp) rfl
  · exact ((c5_response_parsing_requirements
      (Json.obj [("matches", Json.arr [Json.null]),
                 ("track", Json.obj [("title", Json.str "Song")])])).2.2.2).mpr
      ⟨⟨[Json.null], rfl, by simp⟩, Json.obj [("title", Json.str "Song")], rfl⟩

/-! ## Lemmas: peak spreading (claim C7) -/

lemma sub256_ne_self {index o : ℕ} (h : index < 256) (h0 : 0 < o)
    (h256 : o < 256) : sub256 index o ≠ index := by
  unfold sub256
  omega

lemma sub256_ne_sub256 {index o1 o2 : ℕ} (h1 : o1 < 256) (h2 : o2 < 256)
    (hne : o1 ≠ o2) : sub256 index o1 ≠ sub256 index o2 := by
  unfold sub256
  omega

lemma spreadFreqLoop_aux (v : Spectrum) : ∀ n : ℕ,
    (∀ p, n ≤ p →
       ((List.range n).foldl
         (fun f p => Function.update f p
           (max (f p) (max (f (p + 1)) (f (p + 2))))) v) p = v p) ∧
    (∀ p, p < n →
       ((List.range n).foldl
         (fun f p => Function.update f p
           (max (f p) (max (f (p + 1)) (f (p + 2))))) v) p
         = max (v p) (max (v (p + 1)) (v (p + 2)))) := by
  intro n
  induction n with
  | zero => exact ⟨fun p _ => rfl, fun p hp => absurd hp (by omega)⟩
  | succ m ih =>
      rw [List.range_succ, List.foldl_append, List.foldl_cons, List.foldl_nil]
      constructor
      · intro p hp
        rw [Function.update_noteq (by omega)]
        exact ih.1 p (by omega)
      · intro p hp
        by_cases hpm : p = m
        · subst hpm
          rw [Function.update_same, ih.1 p (le_refl _), ih.1 (p + 1) (by omega),
            ih.1 (p + 2) (by omega)]
        · rw [Function.update_noteq hpm]
          exact ih.2 p (by omega)

lemma spreadFreqLoop_lt (v : Spectrum) (p : ℕ) (hp : p ≤ 1022) :
    spreadFreqLoop v p = max (v p) (max (v (p + 1)) (v (p + 2))) :=
  (spreadFreqLoop_aux v 1023).2 p (by omega)

lemma spreadFreqLoop_ge (v : Spectrum) (p : ℕ) (hp : 1023 ≤ p) :
    spreadFreqLoop v p = v p :=
  (spreadFreqLoop_aux v 1023).1 p hp

lemma spreadTimeStep_spec {index : ℕ} (h : index < 256) (cur : Spectrum)
    (t : SpectraRing) (p : ℕ) :
    (∀ o, o ∈ ([1, 3, 6] : List ℕ) →
       ([1, 3, 6] : List ℕ).foldl
         (fun (t2 : SpectraRing) (former : ℕ) =>
           Function.update t2 (sub256 index former)
             (Function.update (t2 (sub256 index former)) p
               (max (t2 (sub256 index former) p) (cur p))))
         t (sub256 index o)
       = Function.update (t (sub256 index o)) p
           (max (t (sub256 index o) p) (cur p))) ∧
    (∀ j, j ≠ sub256 index 1 → j ≠ sub256 index 3 → j ≠ sub256 index 6 →
       ([1, 3, 6] : List ℕ).foldl
         (fun (t2 : SpectraRing) (former : ℕ) =>
           Function.update t2 (sub256 index former)
             (Function.update (t2 (sub256 index former)) p
               (max (t2 (sub256 index former) p) (cur p))))
         t j
       = t j) := by
  have h13 : sub256 index 1 ≠ sub256 index 3 :=
    sub256_ne_sub256 (by norm_num) (by norm_num) (by norm_num)
  have h16 : sub256 index 1 ≠ sub256 index 6 :=
    sub256_ne_sub256 (by norm_num) (by norm_num) (by norm_num)
  have h36 : sub256 index 3 ≠ sub256 index 6 :=
    sub256_ne_sub256 (by norm_num) (by norm_num) (by norm_num)
  simp only [List.foldl_cons, List.foldl_nil]
  constructor
  · intro o ho
    simp only [List.mem_cons, List.not_mem_nil, or_false] at ho
    rcases ho with rfl | rfl | rfl
    · rw [Function.update_noteq h16, Function.update_noteq h13,
        Function.update_same]
    · rw [Function.update_noteq h36, Function.update_same,
        Function.update_noteq h13.symm]
    · rw [Function.update_same, Function.update_noteq h36.symm,
        Function.update_noteq h16.symm]
  · intro j hj1 hj3 hj6
    rw [Function.update_noteq hj6, Function.update_noteq hj3,
      Function.update_noteq hj1]

lemma spreadTimeLoop_aux {index : ℕ} (h : index < 256) (cur : Spectrum)
    (ring1 : SpectraRing) : ∀ n : ℕ,
    (∀ o, o ∈ ([1, 3, 6] : List ℕ) → ∀ p,
       (p < n →
          ((List.range n).foldl
            (fun (t : SpectraRing) (p : ℕ) =>
              ([1, 3, 6] : List ℕ).foldl
                (fun (t2 : SpectraRing) (former : ℕ) =>
                  Function.update t2 (sub256 index former)
                    (Function.update (t2 (sub256 index former)) p
                      (max (t2 (sub256 index former) p) (cur p)))) t)
            ring1) (sub256 index o) p
            = max (ring1 (sub256 index o) p) (cur p)) ∧
       (n ≤ p →
          ((List.range n).foldl
            (fun (t : SpectraRing) (p : ℕ) =>
              ([1, 3, 6] : List ℕ).foldl
                (fun (t2 : SpectraRing) (former : ℕ) =>
                  Function.update t2 (sub256 index former)
                    (Function.update (t2 (sub256 index former)) p
                      (max (t2 (sub256 index former) p) (cur p)))) t)
            ring1) (sub256 index o) p
            = ring1 (sub256 index o) p)) ∧
    (∀ j, j ≠ sub256 index 1 → j ≠ sub256 index 3 → j ≠ sub256 index 6 →
       ((List.range n).foldl
         (fun (t : SpectraRing) (p : ℕ) =>
           ([1, 3, 6] : List ℕ).foldl
             (fun (t2 : SpectraRing) (former : ℕ) =>
               Function.update t2 (sub256 index former)
                 (Function.update (t2 (sub256 index former)) p
                   (max (t2 (sub256 index former) p) (cur p)))) t)
         ring1) j
         = ring1 j) := by
  intro n
  induction n with
  | zero =>
      refine ⟨fun o ho p => ⟨fun hp => absurd hp (by omega), fun _ => rfl⟩,
        fun j _ _ _ => rfl⟩
  | succ m ih =>
      rw [List.range_succ, List.foldl_append, List.foldl_cons, List.foldl_nil]
      constructor
      · intro o ho p
        rw [(spreadTimeStep_spec h cur _ m).1 o ho]
        constructor
        · intro hp
          by_cases hpm : p = m
          · subst hpm
            rw [Function.update_same, ((ih.1 o ho p).2 (le_refl _))]
          · rw [Function.update_noteq hpm]
            exact (ih.1 o ho p).1 (by omega)
        · intro hp
          rw [Function.update_noteq (by omega)]
          exact (ih.1 o ho p).2 (by omega)
      · intro j hj1 hj3 hj6
        rw [(spreadTimeStep_spec h cur _ m).2 j hj1 hj3 hj6]
        exact ih.2 j hj1 hj3 hj6

set_option maxRecDepth 8000 in
/-- Claim C7.  In every `do_peak_spreading` call on a ring cursor
`index < 256`: the newest magnitude spectrum lands in spread slot
`index`, where every frequency position `i ≤ 1022` holds the maximum
of the original values at `i`, `i+1`, `i+2` (positions 1023 and 1024
are the plain copy); the spread spectra 1, 3 and 6 hops back are each
raised bin-wise to the maximum of their existing value and the current
spread spectrum; every other slot is untouched; and the cursor
advances by one modulo 256. -/
theorem c7_peak_spreading_semantics (ring : SpectraRing) (index : ℕ)
    (fft : Spectrum) (h : index < 256) :
    (∀ p, p ≤ 1022 →
       (doPeakSpreading ring index fft).1 index p
         = max (fft p) (max (fft (p + 1)) (fft (p + 2)))) ∧
    (∀ p, 1023 ≤ p → (doPeakSpreading ring index fft).1 index p = fft p) ∧
    (∀ o, o ∈ ([1, 3, 6] : List ℕ) → ∀ p, p ≤ 1024 →
       (doPeakSpreading ring index fft).1 (sub256 index o) p
         = max (ring (sub256 index o) p)
             ((doPeakSpreading ring index fft).1 index p)) ∧
    (∀ o, o ∈ ([1, 3, 6] : List ℕ) → ∀ p, 1025 ≤ p →
       (doPeakSpreading ring index fft).1 (sub256 index o) p
         = ring (sub256 index o) p) ∧
    (∀ j, j ≠ index → j ≠ sub256 index 1 → j ≠ sub256 index 3 →
       j ≠ sub256 index 6 →
       (doPeakSpreading ring index fft).1 j = ring j) ∧
    (doPeakSpreading ring index fft).2 = (index + 1) % 256 := by
  have hne1 : sub256 index 1 ≠ index :=
    sub256_ne_self h (by norm_num) (by norm_num)
  have hne3 : sub256 index 3 ≠ index :=
    sub256_ne_self h (by norm_num) (by norm_num)
  have hne6 : sub256 index 6 ≠ index :=
    sub256_ne_self h (by norm_num) (by norm_num)
  have hcur : (doPeakSpreading ring index fft).1 index
      = spreadFreqLoop fft := by
    show (spreadTimeLoop (Function.update ring index (spreadFreqLoop fft))
        index (spreadFreqLoop fft)) index = spreadFreqLoop fft
    unfold spreadTimeLoop
    rw [(spreadTimeLoop_aux h (spreadFreqLoop fft) _ 1025).2 index hne1.symm
      hne3.symm hne6.symm]
    rw [Function.update_same]
  refine ⟨?_, ?_, ?_, ?_, ?_, rfl⟩
  · intro p hp
    rw [hcur]
    exact spreadFreqLoop_lt fft p hp
  · intro p hp
    rw [hcur]
    exact spreadFreqLoop_ge fft p hp
  · intro o ho p hp
    rw [hcur]
    have hslot : (doPeakSpreading ring index fft).1 (sub256 index o)
        = (spreadTimeLoop (Function.update ring index (spreadFreqLoop fft))
            index (spreadFreqLoop fft)) (sub256 index o) := rfl
    rw [hslot]
    unfold spreadTimeLoop
    rw [((spreadTimeLoop_aux h (spreadFreqLoop fft) _ 1025).1 o ho p).1
      (by omega)]
    have hbase : Function.update ring index (spreadFreqLoop fft)
        (sub256 index o) = ring (sub256 index o) := by
      apply Function.update_noteq
      simp only [List.mem_cons, List.not_mem_nil, or_false] at ho
      rcases ho with rfl | rfl | rfl
      · exact hne1
      · exact hne3
      · exact hne6
    rw [hbase]
  · intro o ho p hp
    have hslot : (doPeakSpreading ring index fft).1 (sub256 index o)
        = (spreadTimeLoop (Function.update ring index (spreadFreqLoop fft))
            index (spreadFreqLoop fft)) (sub256 index o) := rfl
    rw [hslot]
    unfold spreadTimeLoop
    rw [((spreadTimeLoop_aux h (spreadFreqLoop fft) _ 1025).1 o ho p).2
      (by omega)]
    have hbase : Function.update ring index (spreadFreqLoop fft)
        (sub256 index o) = ring (sub256 index o) := by
      apply Function.update_noteq
      simp only [List.mem_cons, List.not_mem_nil, or_false] at ho
      rcases ho with rfl | rfl | rfl
      · exact hne1
      · exact hne3
      · exact hne6
    rw [hbase]
  · intro j hj hj1 hj3 hj6
    have hslot : (doPeakSpreading ring index fft).1 j
        = (spreadTimeLoop (Function.update ring index (spreadFreqLoop fft))
            index (spreadFreqLoop fft)) j := rfl
    rw [hslot]
    unfold spreadTimeLoop
    rw [(spreadTimeLoop_aux h (spreadFreqLoop fft) _ 1025).2 j hj1 hj3 hj6]
    exact Function.update_noteq hj _ _

/-- Witness for `c7_peak_spreading_semantics`: on the all-zero ring at
cursor 0 with a spectrum that is 7 at bin 2 and 0 elsewhere, bin 0 of
the current spread slot becomes `max 0 (max 0 7) = 7`, and bin 0 of
the slot one hop back (slot 255) is raised to 7 as well. -/
theorem c7_witness :
    (doPeakSpreading (fun _ _ => 0) 0
        (fun p => if p = 2 then 7 else 0)).1 0 0 = 7 ∧
    (doPeakSpreading (fun _ _ => 0) 0
        (fun p => if p = 2 then 7 else 0)).1 (sub256 0 1) 0 = 7 := by
  have h := c7_peak_spreading_semantics (fun _ _ => 0) 0
    (fun p => if p = 2 then 7 else 0) (by norm_num)
  have h1 : (doPeakSpreading (fun _ _ => 0) 0
      (fun p => if p = 2 then 7 else 0)).1 0 0 = 7 := by
    rw [h.1 0 (by norm_num)]
    norm_num
  refine ⟨h1, ?_⟩
  rw [h.2.2.1 1 (by simp) 0 (by norm_num), h1]
  norm_num

/-! ## Lemmas: the streaming accumulator drain loop (claims C2, C4) -/

lemma processLoop_none (o : ℕ → List Candidate) : ∀ (n : ℕ) (st : ProcState),
    st.sampleBuffer.length = n →
    st.samplesProcessed + 128 * (n / 128) < minSamples →
    (processLoop o st).2 = none ∧
    (processLoop o st).1.samplesProcessed
      = st.samplesProcessed + 128 * (n / 128) ∧
    (processLoop o st).1.sampleBuffer.length = n % 128 := by
  intro n
  induction n using Nat.strong_induction_on with
  | _ n ih =>
      intro st hlen hlt
      rw [processLoop]
      by_cases h128 : 128 ≤ st.sampleBuffer.length
      · rw [dif_pos h128]
        have hn : 128 ≤ n := hlen ▸ h128
        have hdiv : 1 ≤ n / 128 := by omega
        rw [if_neg (by omega)]
        have hlen' : (st.sampleBuffer.drop 128).length = n - 128 := by
          rw [List.length_drop, hlen]
        obtain ⟨h1, h2, h3⟩ := ih (n - 128) (by omega)
          { gen := genDoFft o st.gen (st.sampleBuffer.take 128) 16000,
            sampleBuffer := st.sampleBuffer.drop 128,
            samplesProcessed := st.samplesProcessed + 128 }
          hlen' (by simp only []; omega)
        refine ⟨h1, ?_, ?_⟩
        · rw [h2]
          simp only []
          omega
        · rw [h3]
          omega
      · rw [dif_neg h128]
        have hn : n < 128 := by omega
        refine ⟨rfl, ?_, ?_⟩
        · simp only []
          omega
        · simp only [hlen]
          omega

lemma processLoop_some (o : ℕ → List Candidate) : ∀ (n : ℕ) (st : ProcState),
    st.sampleBuffer.length = n →
    st.samplesProcessed < minSamples →
    minSamples ≤ st.samplesProcessed + 128 * (n / 128) →
    (processLoop o st).1 = procInit ∧
    (processLoop o st).2.isSome = true := by
  intro n
  induction n using Nat.strong_induction_on with
  | _ n ih =>
      intro st hlen hp hge
      have h128 : 128 ≤ st.sampleBuffer.length := by
        by_contra hc
        have : n < 128 := by omega
        have : n / 128 = 0 := by omega
        simp only [this, Nat.mul_zero, Nat.add_zero] at hge
        omega
      rw [processLoop, dif_pos h128]
      have hn : 128 ≤ n := hlen ▸ h128
      by_cases hdone : minSamples ≤ st.samplesProcessed + 128
      · rw [if_pos hdone]
        exact ⟨rfl, rfl⟩
      · rw [if_neg hdone]
        have hlen' : (st.sampleBuffer.drop 128).length = n - 128 := by
          rw [List.length_drop, hlen]
        exact ih (n - 128) (by omega)
          { gen := genDoFft o st.gen (st.sampleBuffer.take 128) 16000,
            sampleBuffer := st.sampleBuffer.drop 128,
            samplesProcessed := st.samplesProcessed + 128 }
          hlen' (by simp only []; omega) (by simp only []; omega)

lemma processLoop_none_processed_le (o : ℕ → List Candidate) :
    ∀ (n : ℕ) (st : ProcState), st.sampleBuffer.length = n →
    (processLoop o st).2 = none →
    st.samplesProcessed ≤ (processLoop o st).1.samplesProcessed := by
  intro n
  induction n using Nat.strong_induction_on with
  | _ n ih =>
      intro st hlen hnone
      rw [processLoop] at hnone ⊢
      by_cases h128 : 128 ≤ st.sampleBuffer.length
      · rw [dif_pos h128] at hnone ⊢
        by_cases hdone : minSamples ≤ st.samplesProcessed + 128
        · rw [if_pos hdone] at hnone
          cases hnone
        · rw [if_neg hdone] at hnone ⊢
          have hlen' : (st.sampleBuffer.drop 128).length = n - 128 := by
            rw [List.length_drop, hlen]
          have := ih (n - 128) (by omega)
            { gen := genDoFft o st.gen (st.sampleBuffer.take 128) 16000,
              sampleBuffer := st.sampleBuffer.drop 128,
              samplesProcessed := st.samplesProcessed + 128 }
            hlen' hnone
          simp only [] at this
          omega
      · rw [dif_neg h128]

lemma processLoop_isSome_init (o : ℕ → List Candidate) :
    ∀ (n : ℕ) (st : ProcState), st.sampleBuffer.length = n →
    (processLoop o st).2.isSome = true →
    (processLoop o st).1 = procInit := by
  intro n
  induction n using Nat.strong_induction_on with
  | _ n ih =>
      intro st hlen hsome
      rw [processLoop] at hsome ⊢
      by_cases h128 : 128 ≤ st.sampleBuffer.length
      · rw [dif_pos h128] at hsome ⊢
        by_cases hdone : minSamples ≤ st.samplesProcessed + 128
        · rw [if_pos hdone]
        · rw [if_neg hdone] at hsome ⊢
          have hlen' : (st.sampleBuffer.drop 128).length = n - 128 := by
            rw [List.length_drop, hlen]
          exact ih (n - 128) (by omega) _ hlen' hsome
      · rw [dif_neg h128] at hsome
        cases hsome

lemma processLoop_processed_lt (o : ℕ → List Candidate) (st : ProcState)
    (hp : st.samplesProcessed < minSamples) :
    (processLoop o st).1.samplesProcessed < minSamples := by
  by_cases hge : minSamples ≤ st.samplesProcessed
      + 128 * (st.sampleBuffer.length / 128)
  · rw [(processLoop_some o st.sampleBuffer.length st rfl hp hge).1]
    norm_num [procInit, minSamples]
  · rw [(processLoop_none o st.sampleBuffer.length st rfl (by omega)).2.1]
    omega

lemma sumLen_take_mono (l : List (List ℤ)) :
    ∀ a b, a ≤ b → sumLen (l.take a) ≤ sumLen (l.take b) := by
  induction l with
  | nil => intro a b _; simp [sumLen]
  | cons x xs ih =>
      intro a b hab
      cases a with
      | zero => simp [sumLen]
      | succ a' =>
          cases b with
          | zero => omega
          | succ b' =>
              simp only [List.take_succ_cons, sumLen, List.map_cons,
                List.sum_cons]
              have := ih a' b' (by omega)
              simp only [sumLen] at this
              omega

lemma sumLen_cons (b : List ℤ) (bs : List (List ℤ)) :
    sumLen (b :: bs) = b.length + sumLen bs := by
  simp [sumLen]

lemma feedBatches_under (o : ℕ → List Candidate) :
    ∀ (batches : List (List ℤ)) (st : ProcState) (c : ℕ),
    st.samplesProcessed = 128 * (c / 128) →
    st.sampleBuffer.length = c % 128 →
    c + sumLen batches < minSamples →
    (feedBatches o st batches).2 = List.replicate batches.length none ∧
    (feedBatches o st batches).1.samplesProcessed
        = 128 * ((c + sumLen batches) / 128) ∧
    (feedBatches o st batches).1.sampleBuffer.length
        = (c + sumLen batches) % 128 := by
  intro batches
  induction batches with
  | nil =>
      intro st c h1 h2 h3
      refine ⟨rfl, ?_, ?_⟩
      · simp only [feedBatches, sumLen, List.map_nil, List.sum_nil,
          Nat.add_zero]
        exact h1
      · simp only [feedBatches, sumLen, List.map_nil, List.sum_nil,
          Nat.add_zero]
        exact h2
  | cons b bs ih =>
      intro st c h1 h2 h3
      rw [sumLen_cons] at h3
      have hbuf : (st.sampleBuffer ++ b).length = c % 128 + b.length := by
        rw [List.length_append, h2]
      have hstep := processLoop_none o (c % 128 + b.length)
        { st with sampleBuffer := st.sampleBuffer ++ b } hbuf
        (by simp only [h1]; omega)
      obtain ⟨hout, hproc, hlen⟩ := hstep
      have hproc' : (processLoop o
          { st with sampleBuffer := st.sampleBuffer ++ b }).1.samplesProcessed
          = 128 * ((c + b.length) / 128) := by
        rw [hproc]
        simp only []
        rw [h1]
        omega
      have hlen' : (processLoop o
          { st with sampleBuffer := st.sampleBuffer ++ b }).1.sampleBuffer.length
          = (c + b.length) % 128 := by
        rw [hlen]
        omega
      obtain ⟨ih1, ih2, ih3⟩ := ih (processLoop o
          { st with sampleBuffer := st.sampleBuffer ++ b }).1
        (c + b.length) hproc' hlen' (by omega)
      simp only [feedBatches, processSamples]
      rw [sumLen_cons]
      refine ⟨?_, ?_, ?_⟩
      · rw [hout, ih1, List.length_cons, List.replicate_succ]
      · rw [ih2]
        omega
      · rw [ih3]
        omega

lemma feedBatches_exact (o : ℕ → List Candidate) :
    ∀ (batches : List (List ℤ)) (st : ProcState) (c : ℕ),
    st.samplesProcessed = 128 * (c / 128) →
    st.sampleBuffer.length = c % 128 →
    c < minSamples →
    c + sumLen batches = minSamples →
    ∃ j σ, j < batches.length ∧
      (feedBatches o st batches).2
        = List.replicate j none ++ some σ
            :: List.replicate (batches.length - j - 1) none ∧
      c + sumLen (batches.take j) < minSamples ∧
      minSamples ≤ c + sumLen (batches.take (j + 1)) := by
  intro batches
  induction batches with
  | nil =>
      intro st c h1 h2 hc htot
      exfalso
      simp only [sumLen, List.map_nil, List.sum_nil, Nat.add_zero] at htot
      omega
  | cons b bs ih =>
      intro st c h1 h2 hc htot
      rw [sumLen_cons] at htot
      have hbuf : (st.sampleBuffer ++ b).length = c % 128 + b.length := by
        rw [List.length_append, h2]
      by_cases hc' : c + b.length < minSamples
      · obtain ⟨hout, hproc, hlen⟩ := processLoop_none o (c % 128 + b.length)
          { st with sampleBuffer := st.sampleBuffer ++ b } hbuf
          (by simp only [h1]; omega)
        have hproc' : (processLoop o
            { st with sampleBuffer := st.sampleBuffer ++ b }).1.samplesProcessed
            = 128 * ((c + b.length) / 128) := by
          rw [hproc]
          simp only []
          rw [h1]
          omega
        have hlen' : (processLoop o
            { st with
                sampleBuffer := st.sampleBuffer ++ b }).1.sampleBuffer.length
            = (c + b.length) % 128 := by
          rw [hlen]
          omega
        obtain ⟨j, σ, hj, houts, hlt, hge⟩ := ih _ (c + b.length) hproc' hlen'
          (by omega) (by omega)
        refine ⟨j + 1, σ, by simp only [List.length_cons]; omega, ?_, ?_, ?_⟩
        · simp only [feedBatches, processSamples]
          rw [hout, houts]
          have harith : (b :: bs).length - (j + 1) - 1 = bs.length - j - 1 := by
            simp only [List.length_cons]
            omega
          rw [harith, List.replicate_succ, List.cons_append]
        · rw [List.take_succ_cons, sumLen_cons]
          omega
        · rw [List.take_succ_cons, sumLen_cons]
          omega
      · have hge' : minSamples ≤ c + b.length := by omega
        obtain ⟨hinit, hsome⟩ := processLoop_some o (c % 128 + b.length)
          { st with sampleBuffer := st.sampleBuffer ++ b } hbuf
          (by simp only [h1]; omega)
          (by simp only [h1, minSamples] at hge' ⊢; omega)
        have hbs0 : sumLen bs = 0 := by omega
        obtain ⟨σ, hσ⟩ := Option.isSome_iff_exists.mp hsome
        obtain ⟨htail, _, _⟩ := feedBatches_under o bs procInit 0
          (by simp [procInit]) (by simp [procInit])
          (by rw [Nat.zero_add, hbs0]; norm_num [minSamples])
        refine ⟨0, σ, by simp only [List.length_cons]; omega, ?_, ?_, ?_⟩
        · simp only [feedBatches, processSamples]
          rw [hσ, hinit, htail]
          simp only [List.length_cons, List.replicate, List.nil_append,
            Nat.add_sub_cancel, Nat.sub_zero]
        · simpa [sumLen] using hc
        · rw [List.take_succ_cons, sumLen_cons]
          simp only [List.take_zero, sumLen, List.map_nil, List.sum_nil,
            Nat.add_zero]
          omega

lemma feedBatches_out_length (o : ℕ → List Candidate) :
    ∀ (batches : List (List ℤ)) (st : ProcState),
      (feedBatches o st batches).2.length = batches.length := by
  intro batches
  induction batches with
  | nil => intro st; rfl
  | cons b bs ih =>
      intro st
      simp only [feedBatches, List.length_cons, ih]

lemma countP_replicate_none (n : ℕ) :
    (List.replicate n (none : Option DecodedSignature)).countP
      (fun out => out.isSome) = 0 := by
  induction n with
  | zero => rfl
  | succ m ih =>
      rw [List.replicate_succ, List.countP_cons, ih]
      rfl

lemma countP_one_some (j m : ℕ) (σ : DecodedSignature) :
    (List.replicate j (none : Option DecodedSignature)
        ++ some σ :: List.replicate m none).countP
      (fun out => out.isSome) = 1 := by
  rw [List.countP_append, List.countP_cons, countP_replicate_none,
    countP_replicate_none]
  rfl

lemma getD_replicate_none (m : ℕ) :
    ∀ k, (List.replicate m (none : Option DecodedSignature)).getD k none
      = none := by
  induction m with
  | zero => intro k; rfl
  | succ m ih =>
      intro k
      cases k with
      | zero => rfl
      | succ k' =>
          rw [List.replicate_succ, List.getD_cons_succ]
          exact ih k'

lemma getD_one_some (j m : ℕ) (σ : DecodedSignature) :
    ∀ k, (List.replicate j (none : Option DecodedSignature)
        ++ some σ :: List.replicate m none).getD k none
      = if k = j then some σ else none := by
  induction j with
  | zero =>
      intro k
      cases k with
      | zero => rfl
      | succ k' =>
          simp only [List.replicate, List.nil_append, List.getD_cons_succ]
          rw [getD_replicate_none, if_neg (by omega)]
  | succ j' ih =>
      intro k
      rw [List.replicate_succ, List.cons_append]
      cases k with
      | zero => rw [List.getD_cons_zero, if_neg (by omega)]
      | succ k' =>
          rw [List.getD_cons_succ, ih k']
          by_cases h : k' = j'
          · rw [if_pos h, if_pos (by omega)]
          · rw [if_neg h, if_neg (by omega)]

/-- Claim C2.  For every partition of exactly 192000 PCM samples into
arbitrary batch sizes, the sequence of `process_samples` calls from a
fresh processor returns a completed signature exactly once — on the
call `k` at which the cumulative sample count first reaches 192000 —
and every call of a sequence totaling fewer than 192000 samples
returns `None`. -/
theorem c2_full_window_single_completion (oracle : ℕ → List Candidate)
    (batches : List (List ℤ)) :
    (sumLen batches = minSamples →
       (feedBatches oracle procInit batches).2.countP
           (fun out => out.isSome) = 1 ∧
       ∀ k, k < batches.length →
         (((feedBatches oracle procInit batches).2.getD k none).isSome = true ↔
           (minSamples ≤ sumLen (batches.take (k + 1)) ∧
            sumLen (batches.take k) < minSamples))) ∧
    (sumLen batches < minSamples →
       (feedBatches oracle procInit batches).2
         = List.replicate batches.length none) := by
  constructor
  · intro htot
    obtain ⟨j, σ, hj, houts, hlt, hge⟩ := feedBatches_exact oracle batches
      procInit 0 (by simp [procInit]) (by simp [procInit])
      (by norm_num [minSamples]) (by omega)
    constructor
    · rw [houts]
      exact countP_one_some _ _ σ
    · intro k hk
      rw [houts, getD_one_some]
      by_cases hkj : k = j
      · subst hkj
        rw [if_pos rfl]
        constructor
        · intro _
          exact ⟨by omega, by omega⟩
        · intro _
          rfl
      · rw [if_neg hkj]
        constructor
        · intro hfalse
          simp at hfalse
        · rintro ⟨hgek, hltk⟩
          exfalso
          rcases Nat.lt_or_ge k j with hklt | hkge
          · have := sumLen_take_mono batches (k + 1) j (by omega)
            omega
          · have := sumLen_take_mono batches (j + 1) k (by omega)
            omega
  · intro hlt
    exact (feedBatches_under oracle batches procInit 0 (by simp [procInit])
      (by simp [procInit]) (by omega)).1

/-- Witness for `c2_full_window_single_completion`: one batch of
exactly 192000 samples completes exactly one signature; one batch of
191999 samples yields a single `None`. -/
theorem c2_witness :
    (feedBatches noCandidates procInit [List.replicate 192000 0]).2.countP
        (fun out => out.isSome) = 1 ∧
    (feedBatches noCandidates procInit [List.replicate 191999 0]).2
      = List.replicate 1 none := by
  have hs1 : sumLen [List.replicate 192000 (0 : ℤ)] = minSamples := by
    simp only [sumLen, List.map_cons, List.map_nil, List.sum_cons,
      List.sum_nil, List.length_replicate, Nat.add_zero]
    rfl
  have hs2 : sumLen [List.replicate 191999 (0 : ℤ)] < minSamples := by
    simp only [sumLen, List.map_cons, List.map_nil, List.sum_cons,
      List.sum_nil, List.length_replicate, Nat.add_zero]
    norm_num [minSamples]
  constructor
  · exact ((c2_full_window_single_completion noCandidates
      [List.replicate 192000 0]).1 hs1).1
  · have h := (c2_full_window_single_completion noCandidates
      [List.replicate 191999 0]).2 hs2
    have hl : ([List.replicate 191999 (0 : ℤ)]).length = 1 := rfl
    rw [hl] at h
    exact h

/-! ## Lemmas: `get_progress` (claim C4) -/

lemma getProgress_nonneg (st : ProcState) : 0 ≤ getProgress st := by
  unfold getProgress
  apply le_min
  · positivity
  · norm_num

lemma getProgress_le_one (st : ProcState) : getProgress st ≤ 1 :=
  min_le_right _ _

lemma getProgress_mono {st st' : ProcState}
    (h : st.samplesProcessed ≤ st'.samplesProcessed) :
    getProgress st ≤ getProgress st' := by
  unfold getProgress
  have hc : (st.samplesProcessed : ℚ) ≤ (st'.samplesProcessed : ℚ) := by
    exact_mod_cast h
  gcongr

lemma getProgress_procInit : getProgress procInit = 0 := by
  unfold getProgress procInit
  norm_num

lemma getProgress_lt_one {st : ProcState}
    (h : st.samplesProcessed < minSamples) : getProgress st < 1 := by
  unfold getProgress
  have hq : (st.samplesProcessed : ℚ) / (minSamples : ℚ) < 1 := by
    rw [div_lt_one (by norm_num [minSamples] : (0 : ℚ) < (minSamples : ℚ))]
    exact_mod_cast h
  exact lt_of_le_of_lt (min_le_left _ _) hq

lemma reachable_processed_lt (oracle : ℕ → List Candidate) :
    ∀ st : ProcState, ReachableProc oracle st →
      st.samplesProcessed < minSamples := by
  intro st h
  induction h with
  | init => norm_num [procInit, minSamples]
  | step st' samples _ ih =>
      unfold processSamples
      exact processLoop_processed_lt oracle _ ih

/-- Claim C4 (amended).  `get_progress` always returns a value in
[0, 1] (it is a pure function of the state — side-effect-free), and is
monotonically non-decreasing across `process_samples` calls that do
not complete a signature.  However it never returns 1.0 at any
observable point: at every state reachable from a fresh processor the
progress is strictly below 1 (the drain loop resets the processor in
the same call in which `samples_processed` would reach the 192000
minimum), and the call that yields the completed signature leaves the
processor reset, so progress is 0 — not 1 — immediately after it. -/
theorem c4_progress_observations (oracle : ℕ → List Candidate) :
    (∀ st : ProcState, 0 ≤ getProgress st ∧ getProgress st ≤ 1) ∧
    (∀ (st : ProcState) (samples : List ℤ),
       (processSamples oracle st samples).2 = none →
       getProgress st ≤ getProgress (processSamples oracle st samples).1) ∧
    (∀ st : ProcState, ReachableProc oracle st → getProgress st < 1) ∧
    (∀ (st : ProcState) (samples : List ℤ) (sig : DecodedSignature),
       (processSamples oracle st samples).2 = some sig →
       (processSamples oracle st samples).1 = procInit ∧
       getProgress (processSamples oracle st samples).1 = 0) := by
  refine ⟨fun st => ⟨getProgress_nonneg st, getProgress_le_one st⟩, ?_, ?_, ?_⟩
  · intro st samples hnone
    apply getProgress_mono
    unfold processSamples at hnone ⊢
    have := processLoop_none_processed_le oracle
      (st.sampleBuffer ++ samples).length
      { st with sampleBuffer := st.sampleBuffer ++ samples } rfl hnone
    simpa using this
  · intro st hst
    exact getProgress_lt_one (reachable_processed_lt oracle st hst)
  · intro st samples sig hsome
    unfold processSamples at hsome ⊢
    have hinit := processLoop_isSome_init oracle
      (st.sampleBuffer ++ samples).length
      { st with sampleBuffer := st.sampleBuffer ++ samples } rfl
      (by rw [hsome]; rfl)
    rw [hinit]
    exact ⟨rfl, getProgress_procInit⟩

/-- Claim C4, counterexample to the claim as stated: feeding exactly
192000 samples to a fresh processor yields the completed signature on
that call, but `get_progress` immediately after that call is 0, not
1.0 — the completing call resets `samples_processed`, so progress
never reaches 1.0. -/
theorem c4_counterexample :
    (processSamples noCandidates procInit (List.replicate 192000 0)).2.isSome
        = true ∧
    getProgress (processSamples noCandidates procInit
        (List.replicate 192000 0)).1 = 0 ∧
    getProgress (processSamples noCandidates procInit
        (List.replicate 192000 0)).1 ≠ 1 := by
  have hbuf : (procInit.sampleBuffer ++ List.replicate 192000 (0 : ℤ)).length
      = 192000 := by
    rw [List.length_append, List.length_replicate]
    rfl
  obtain ⟨hinit, hsome⟩ := processLoop_some noCandidates 192000
    { procInit with
        sampleBuffer := procInit.sampleBuffer ++ List.replicate 192000 0 }
    hbuf (by norm_num [procInit, minSamples])
    (by norm_num [procInit, minSamples])
  refine ⟨hsome, ?_, ?_⟩
  · unfold processSamples
    rw [hinit]
    exact getProgress_procInit
  · unfold processSamples
    rw [hinit, getProgress_procInit]
    norm_num

/-- Witness for `c4_progress_observations`: at the fresh processor,
progress is within [0, 1] and strictly below 1; and the completing
192000-sample call leaves progress at 0. -/
theorem c4_witness :
    (0 ≤ getProgress procInit ∧ getProgress procInit ≤ 1) ∧
    getProgress procInit < 1 ∧
    getProgress (processSamples noCandidates procInit
        (List.replicate 192000 0)).1 = 0 := by
  refine ⟨(c4_progress_observations noCandidates).1 procInit, ?_, ?_⟩
  · exact (c4_progress_observations noCandidates).2.2.1 procInit
      ReachableProc.init
  · have hbuf : (procInit.sampleBuffer
        ++ List.replicate 192000 (0 : ℤ)).length = 192000 := by
      rw [List.length_append, List.length_replicate]
      rfl
    obtain ⟨hinit, hsome⟩ := processLoop_some noCandidates 192000
      { procInit with
          sampleBuffer := procInit.sampleBuffer ++ List.replicate 192000 0 }
      hbuf (by norm_num [procInit, minSamples])
      (by norm_num [procInit, minSamples])
    obtain ⟨σ, hσ⟩ := Option.isSome_iff_exists.mp hsome
    exact ((c4_progress_observations noCandidates).2.2.2 procInit
      (List.replicate 192000 0) σ hσ).2

end Songrec
